import Mathlib
/-!
Verification development for the layered LPK container parser of this
repository (`lpk-loader.js` and the local-file-header scan of `test-lpk.js`).

Buffers are modelled as `List Nat` of byte values; JavaScript typed-array and
`DataView` reads that throw `RangeError` out of bounds are modelled with
`Option`, while operations that clamp (`ArrayBuffer.slice`, `Buffer.slice`)
are modelled by clamping `take`/`drop`.
-/

namespace LPK

/-! ## Byte readers (DataView / Buffer, little-endian) -/

/-- Total little-endian 16-bit read; out-of-range bytes read as 0.  Used only
where the source guarantees the read is in bounds. -/

def readU16D (l : List Nat) (k : Nat) : Nat :=
  l.getD k 0 + 256 * l.getD (k + 1) 0

/-- Total little-endian 32-bit read; out-of-range bytes read as 0. -/

def readU32D (l : List Nat) (k : Nat) : Nat :=
  l.getD k 0 + 256 * l.getD (k + 1) 0 + 65536 * l.getD (k + 2) 0
    + 16777216 * l.getD (k + 3) 0

/-- `DataView.getUint16(k, true)` / `Buffer.readUInt16LE(k)`: little-endian
16-bit read, `RangeError` (modelled `none`) when `k + 2` exceeds the length. -/

def readUInt16LE (l : List Nat) (k : Nat) : Option Nat :=
  if k + 2 ≤ l.length then some (readU16D l k) else none

/-- `DataView.getUint32(k, true)` / `Buffer.readUInt32LE(k)`: little-endian
32-bit read, `RangeError` (modelled `none`) when `k + 4` exceeds the length. -/

def readUInt32LE (l : List Nat) (k : Nat) : Option Nat :=
  if k + 4 ≤ l.length then some (readU32D l k) else none

/-- `new Uint8Array(buffer, off, n)`: a view of `n` bytes at `off`,
`RangeError` (modelled `none`) when `off + n` exceeds the length. -/

def readBytes (l : List Nat) (off n : Nat) : Option (List Nat) :=
  if off + n ≤ l.length then some ((l.drop off).take n) else none

/-- `ArrayBuffer.slice(a, b)` / `Buffer.slice(a, b)` for non-negative
arguments: both bounds are clamped to the buffer, and an empty result is
returned when the clamped range is empty. -/

def sliceJS (l : List Nat) (a b : Nat) : List Nat :=
  (l.take b).drop a

/-! ## UTF-8 decoding (`TextDecoder`, non-fatal mode)

WHATWG `TextDecoder` with the default non-fatal UTF-8 decoder: invalid
sequences produce U+FFFD and decoding resumes at the offending byte.  The
result is the list of decoded code points. -/

/-- Lower/upper bounds of the first continuation byte of a 3-byte sequence. -/

def cont1Lo3 (b : Nat) : Nat := if b = 224 then 160 else 128

def cont1Hi3 (b : Nat) : Nat := if b = 237 then 159 else 191

/-- Lower/upper bounds of the first continuation byte of a 4-byte sequence. -/

def cont1Lo4 (b : Nat) : Nat := if b = 240 then 144 else 128

def cont1Hi4 (b : Nat) : Nat := if b = 244 then 143 else 191

def isCont (c : Nat) : Bool := 128 ≤ c && c ≤ 191

/-- WHATWG UTF-8 decode, fuel-indexed so that the recursion is structural
(each step consumes at least one byte, so `fuel = length` always suffices;
the fuel only serves to make the definition reduce in the kernel). -/

def utf8DecodeAux : Nat → List Nat → List Nat
  | 0, _ => []
  | _, [] => []
  | fuel + 1, b :: rest =>
    if b < 128 then b :: utf8DecodeAux fuel rest
    else if 194 ≤ b ∧ b ≤ 223 then
      match rest with
      | [] => [65533]
      | c :: r2 =>
        if isCont c then ((b - 192) * 64 + (c - 128)) :: utf8DecodeAux fuel r2
        else 65533 :: utf8DecodeAux fuel (c :: r2)
    else if 224 ≤ b ∧ b ≤ 239 then
      match rest with
      | [] => [65533]
      | c1 :: r2 =>
        if cont1Lo3 b ≤ c1 ∧ c1 ≤ cont1Hi3 b then
          match r2 with
          | [] => [65533]
          | c2 :: r3 =>
            if isCont c2 then
              ((b - 224) * 4096 + (c1 - 128) * 64 + (c2 - 128))
                :: utf8DecodeAux fuel r3
            else 65533 :: utf8DecodeAux fuel (c2 :: r3)
        else 65533 :: utf8DecodeAux fuel (c1 :: r2)
    else if 240 ≤ b ∧ b ≤ 244 then
      match rest with
      | [] => [65533]
      | c1 :: r2 =>
        if cont1Lo4 b ≤ c1 ∧ c1 ≤ cont1Hi4 b then
          match r2 with
          | [] => [65533]
          | c2 :: r3 =>
            if isCont c2 then
              match r3 with
              | [] => [65533]
              | c3 :: r4 =>
                if isCont c3 then
                  ((b - 240) * 262144 + (c1 - 128) * 4096 + (c2 - 128) * 64
                    + (c3 - 128)) :: utf8DecodeAux fuel r4
                else 65533 :: utf8DecodeAux fuel (c3 :: r4)
            else 65533 :: utf8DecodeAux fuel (c2 :: r3)
        else 65533 :: utf8DecodeAux fuel (c1 :: r2)
    else 65533 :: utf8DecodeAux fuel rest

/-- `new TextDecoder().decode(bytes)`: WHATWG UTF-8 decode with U+FFFD
replacement, returning the decoded code points. -/

def utf8Decode (l : List Nat) : List Nat :=
  utf8DecodeAux l.length l

/-! ## Format sniffing (`detectFormat`, lpk-loader.js lines 53–71) -/

inductive FormatTag where
  | zip
  | json
  | binary
deriving DecidableEq

/-- Code points removed by JavaScript `String.prototype.trim`
(ECMAScript WhiteSpace and LineTerminator). -/

def jsWhitespace (c : Nat) : Bool :=
  c ∈ [9, 10, 11, 12, 13, 32, 160, 5760, 8192, 8193, 8194, 8195, 8196, 8197,
       8198, 8199, 8200, 8201, 8202, 8232, 8233, 8239, 8287, 12288, 65279]

/-- `String.prototype.trim`. -/

def trimJS (cs : List Nat) : List Nat :=
  ((cs.dropWhile jsWhitespace).reverse.dropWhile jsWhitespace).reverse

/-- The ZIP-signature test of `detectFormat`:
`uint8Array[0] === 0x50 && uint8Array[1] === 0x4B` (out-of-range indexing
yields `undefined`, which compares unequal; `getD _ 0` is faithful since
`0x50 ≠ 0` and `0x4B ≠ 0`). -/

def zipCondB (buf : List Nat) : Bool :=
  buf.getD 0 0 == 80 && buf.getD 1 0 == 75

/-- The JSON test of `detectFormat`: decode the first 10 bytes, trim, and
check whether the text starts with `{` (123) or `[` (91). -/

def jsonCondB (buf : List Nat) : Bool :=
  match trimJS (utf8Decode (buf.take 10)) with
  | [] => false
  | c :: _ => c == 123 || c == 91

/-- `detectFormat` (lpk-loader.js lines 53–71). -/

def detectFormat (buf : List Nat) : FormatTag :=
  if zipCondB buf then .zip
  else if jsonCondB buf then .json
  else .binary

/-! ## Extension-based categorization (shared by both parsers)

Both `parseZIPLPK` (lines 94–119) and `parseBinaryLPK` (lines 195–220) compute
`name.split('.').pop().toLowerCase()` and compare it against fixed ASCII
extension lists.  Names are lists of code points.  `toLowerCase` is modelled
on the ASCII range, which is observationally equivalent here because every
comparison target is a pure lowercase-ASCII extension none of whose letters
is the image of a non-ASCII upper-case code point. -/

/-- Code points of an ASCII string literal. -/

def asciiStr (s : String) : List Nat :=
  s.data.map Char.toNat

/-- `name.split('.').pop()`: the suffix after the last `.` (code point 46);
the whole name when no dot occurs, empty when the name ends in a dot. -/

def lastSeg (l : List Nat) : List Nat :=
  l.foldl (fun acc c => if c == 46 then [] else acc ++ [c]) []

/-- ASCII case folding of `String.prototype.toLowerCase`. -/

def toLowerAscii (l : List Nat) : List Nat :=
  l.map (fun c => if 65 ≤ c ∧ c ≤ 90 then c + 32 else c)

/-- The extension used for categorization:
`name.split('.').pop().toLowerCase()`. -/

def extOf (name : List Nat) : List Nat :=
  toLowerAscii (lastSeg name)

def modelExts : List (List Nat) :=
  [asciiStr "gltf", asciiStr "glb", asciiStr "obj", asciiStr "fbx"]

def texExts : List (List Nat) :=
  [asciiStr "png", asciiStr "jpg", asciiStr "jpeg", asciiStr "webp",
   asciiStr "gif"]

/-- One categorized entry (`{filename, data, type}` in the source). -/

structure BinEntry where
  filename : List Nat
  data : List Nat
  ext : List Nat
deriving DecidableEq

/-- JavaScript object-property assignment `m[k] = v` on a string-keyed
object modelled as an association list: an existing key is overwritten in
place, a new key is appended. -/

def insertAssoc (m : List (List Nat × List Nat)) (k v : List Nat) :
    List (List Nat × List Nat) :=
  if m.any (fun p => p.1 == k) then
    m.map (fun p => if p.1 == k then (k, v) else p)
  else m ++ [(k, v)]

/-! ## Binary table parser (`parseBinaryLPK`, lpk-loader.js lines 147–223) -/

/-- One row of the asset table: name (decoded code points), `uint32 type`,
`uint32 size`, `uint32 dataOffset`. -/

structure Asset where
  name : List Nat
  type : Nat
  size : Nat
  dataOffset : Nat
deriving DecidableEq

/-- The result `{format:'binary', version, assets:{models, textures, data}}`
of `parseBinaryLPK` (the lazily-created bucket arrays are plain lists). -/

structure BinResult where
  version : Nat
  models : List BinEntry
  textures : List BinEntry
  dataEntries : List (List Nat × List Nat)
deriving DecidableEq

/-- Read one asset-table row at `off`:
`uint16 nameLength | name bytes | uint32 type | uint32 size | uint32
dataOffset`, returning the row and the cursor past it.  Any out-of-range
read throws in the source (`none` here). -/

def readRow (buf : List Nat) (off : Nat) : Option (Asset × Nat) := do
  let nl ← readUInt16LE buf off
  let nameBytes ← readBytes buf (off + 2) nl
  let ty ← readUInt32LE buf (off + 2 + nl)
  let sz ← readUInt32LE buf (off + 6 + nl)
  let dOff ← readUInt32LE buf (off + 10 + nl)
  return (⟨utf8Decode nameBytes, ty, sz, dOff⟩, off + 14 + nl)

/-- Read `count` consecutive table rows starting at `off`. -/

def readRows (buf : List Nat) (off : Nat) : Nat → Option (List Asset)
  | 0 => some []
  | n + 1 => do
    let (a, off2) ← readRow buf off
    let rest ← readRows buf off2 n
    return a :: rest

/-- Header and table read with the version field at `start`, the entry count
at `start + 4` and the table at `start + 8`. -/

def binAssetsAt (buf : List Nat) (start : Nat) : Option (Nat × List Asset) := do
  let version ← readUInt32LE buf start
  let count ← readUInt32LE buf (start + 4)
  let assets ← readRows buf (start + 8) count
  return (version, assets)

/-- `arrayBuffer.slice(asset.dataOffset, asset.dataOffset + asset.size)`:
the extracted bytes of one table row — absolute offsets, clamped by
`ArrayBuffer.slice`, never throwing. -/

def extractData (buf : List Nat) (a : Asset) : List Nat :=
  sliceJS buf a.dataOffset (a.dataOffset + a.size)

/-- One iteration of the per-asset categorization loop of `parseBinaryLPK`
(lines 195–220): model extensions and texture extensions go to their
buckets; everything else — json included — is stored uninterpreted under
`assets.data[name]`. -/

def binStep (buf : List Nat) (r : BinResult) (a : Asset) : BinResult :=
  if extOf a.name ∈ modelExts then
    { r with models :=
        r.models ++ [⟨a.name, extractData buf a, extOf a.name⟩] }
  else if extOf a.name ∈ texExts then
    { r with textures :=
        r.textures ++ [⟨a.name, extractData buf a, extOf a.name⟩] }
  else
    { r with dataEntries :=
        insertAssoc r.dataEntries a.name (extractData buf a) }

/-- The data-extraction and categorization loop of `parseBinaryLPK`. -/

def buildBinResult (buf : List Nat) (version : Nat) (assets : List Asset) :
    BinResult :=
  assets.foldl (binStep buf) ⟨version, [], [], []⟩

/-- The first four characters of the buffer, compared against `'LPK\0'`
(`String.fromCharCode` maps each byte to its own code point, so the check is
a byte comparison).  Reading the 4-byte view throws when the buffer is
shorter than 4 bytes. -/

def magicOk (buf : List Nat) : Bool :=
  buf.take 4 == [76, 80, 75, 0]

/-- The parse from a given start cursor: version, entry count, table, then
data extraction and categorization. -/

def parseBinaryCore (buf : List Nat) (start : Nat) :
    Except String BinResult :=
  match binAssetsAt buf start with
  | none => .error "RangeError"
  | some (version, assets) => .ok (buildBinResult buf version assets)

/-- `parseBinaryLPK` (lpk-loader.js lines 147–223): read the 4-byte magic
(throwing when the buffer is shorter), keep the cursor at 4 when it matches
`'LPK\0'` and reset it to 0 otherwise, then parse from that cursor. -/

def parseBinaryLPK (buf : List Nat) : Except String BinResult :=
  if buf.length < 4 then .error "RangeError"
  else parseBinaryCore buf (if magicOk buf then 4 else 0)

/-- The `console.warn` emitted by `parseBinaryLPK` on a magic mismatch
(modelled as an observable warning list beside the result). -/

def binWarnings (buf : List Nat) : List String :=
  if buf.length < 4 then []
  else if magicOk buf then []
  else ["LPK magic number mismatch, attempting to parse anyway..."]

/-- The successfully parsed `(version, table rows)` view of
`parseBinaryLPK`, `none` exactly when the source throws. -/

def binParsed (buf : List Nat) : Option (Nat × List Asset) :=
  if buf.length < 4 then none
  else binAssetsAt buf (if magicOk buf then 4 else 0)

/-! ## ZIP-based parser categorization (`parseZIPLPK`, lines 76–125)

The archive decoding itself is delegated to the external JSZip library; the
in-repo logic is the per-file loop: skip directories, categorize by
extension, and record nothing at all for extensions outside the fixed
table.  `result.assets` starts as `{}` and only `models` and `textures` are
lazily created (lines 102, 109); `result.assets.data` is never initialized,
so the json branch's store `result.assets.data[filename] = jsonData`
(line 117) dereferences `undefined` and throws a `TypeError` — after
`JSON.parse` of the file's text, which itself throws a `SyntaxError` when
the text is not valid JSON.  Either way, reaching any non-directory
`.json` file aborts the whole parse, so the result has no data bucket and
the loop is fallible. -/

/-- One file as handed over by the external archive library.  `jsonOk`
records whether the external `JSON.parse` succeeds on the file's decoded
text; it is consulted only by the json branch, which throws either way
(`SyntaxError` from `JSON.parse` when it fails, `TypeError` from the store
into the uninitialized `result.assets.data` when it succeeds). -/

structure ZFile where
  name : List Nat
  dir : Bool
  data : List Nat
  jsonOk : Bool
deriving DecidableEq

/-- The `result.assets` object actually produced by `parseZIPLPK`: only the
lazily-created `models` and `textures` arrays — no data bucket exists,
since `result.assets.data` is never initialized and every attempted store
into it throws. -/

structure ZipResult where
  models : List BinEntry
  textures : List BinEntry
deriving DecidableEq

/-- One iteration of the categorization loop of `parseZIPLPK` (lines
94–119).  A file whose extension matches no table row is not recorded
anywhere (there is no final `else` push); a non-directory `.json` file
throws — `SyntaxError` from the external `JSON.parse` when its text is not
valid JSON, otherwise `TypeError` from the store into the never-initialized
`result.assets.data`. -/

def zipStep (r : ZipResult) (f : ZFile) : Except String ZipResult :=
  if f.dir then .ok r
  else if extOf f.name ∈ modelExts then
    .ok { r with models := r.models ++ [⟨f.name, f.data, extOf f.name⟩] }
  else if extOf f.name ∈ texExts then
    .ok { r with textures := r.textures ++ [⟨f.name, f.data, extOf f.name⟩] }
  else if extOf f.name == asciiStr "json" then
    if f.jsonOk then .error "TypeError" else .error "SyntaxError"
  else .ok r

/-- The file loop of `parseZIPLPK`: sequential, aborting the whole parse at
the first file whose step throws. -/

def zipLoop : List ZFile → ZipResult → Except String ZipResult
  | [], r => .ok r
  | f :: fs, r =>
    match zipStep r f with
    | .error e => .error e
    | .ok r2 => zipLoop fs r2

/-- The categorization loop of `parseZIPLPK` over the files handed over by
the external archive library. -/

def parseZIPFiles (files : List ZFile) : Except String ZipResult :=
  zipLoop files ⟨[], []⟩

/-! ## Nested-archive unwrapping and local-file-header scan
(`extractZipData`, lpk-loader.js line 417, and the scan loop of
test-lpk.js lines 395–428) -/

/-- `arrayBuffer.slice(8)` / `lpkData.slice(8)`: drop the 8-byte LPK header. -/

def extractZipData (buf : List Nat) : List Nat :=
  buf.drop 8

/-- The signature test
`zipData[off] === 0x50 && zipData[off+1] === 0x4B && zipData[off+2] === 0x03
&& zipData[off+3] === 0x04` (out-of-range indexing yields `undefined`,
which compares unequal; `getD _ 0` is faithful since no signature byte is 0). -/

def sigB (body : List Nat) (p : Nat) : Bool :=
  body.getD p 0 == 80 && body.getD (p + 1) 0 == 75 &&
    body.getD (p + 2) 0 == 3 && body.getD (p + 3) 0 == 4

/-- One discovered entry: filename bytes, the two size fields, and the
absolute offset of the payload within the body (the `offset:` field pushed
by the source; payload bytes are the `compressedSize` bytes from there,
kept compressed — the scan never decompresses). -/

structure ZipEntry where
  filename : List Nat
  compressedSize : Nat
  uncompressedSize : Nat
  payloadStart : Nat
deriving DecidableEq

/-- The local-file-header scan loop (test-lpk.js lines 398–426).  While
`offset < zipData.length - 30` (equivalently `offset + 30 < length`): on a
signature match read, little-endian, the compressed size at `offset + 18`,
the uncompressed size at `offset + 22`, the filename length at `offset + 26`
and the extra-field length at `offset + 28` (all inside the fixed 30-byte
record, hence in bounds), slice the filename right after the record, emit
the entry, and jump the cursor past the whole entry
(`offset += 30 + filenameLength + extraFieldLength + compressedSize`);
otherwise advance one byte. -/

def scanFromAux : Nat → List Nat → Nat → List ZipEntry
  | 0, _, _ => []
  | fuel + 1, body, offset =>
    if offset + 30 < body.length then
      if sigB body offset then
        let fl := readU16D body (offset + 26)
        let el := readU16D body (offset + 28)
        let cs := readU32D body (offset + 18)
        let us := readU32D body (offset + 22)
        ⟨sliceJS body (offset + 30) (offset + 30 + fl), cs, us,
          offset + 30 + fl + el⟩
          :: scanFromAux fuel body (offset + 30 + fl + el + cs)
      else scanFromAux fuel body (offset + 1)
    else []

/-- The scan loop entered at a given cursor.  Every iteration advances the
cursor by at least one, so `body.length - offset` steps of fuel always
suffice; the fuel only makes the recursion structural. -/

def scanFrom (body : List Nat) (offset : Nat) : List ZipEntry :=
  scanFromAux (body.length - offset) body offset

/-- The whole analysis of test-lpk.js: strip the 8-byte LPK header, then
scan the remaining body from offset 0. -/

def analyzeLPK (buf : List Nat) : List ZipEntry :=
  scanFrom (extractZipData buf) 0

/-! ## Entry membership in a binary-parse result -/

/-- A named byte blob occurs as an entry somewhere in the result: among the
model entries, the texture entries, or the `assets.data` map. -/

def hasEntry (r : BinResult) (nm d : List Nat) : Prop :=
  (∃ e ∈ r.models, e.filename = nm ∧ e.data = d) ∨
  (∃ e ∈ r.textures, e.filename = nm ∧ e.data = d) ∨
  (nm, d) ∈ r.dataEntries

/-! ## Well-formed nested archives

A valid nested-archive body is a concatenation of blocks — each a 30-byte
local file header whose little-endian fields describe the filename, the
extra field and the (still compressed) payload that follow it — possibly
followed by trailing bytes (central directory etc.) containing no
local-file-header signature. -/

structure Block where
  header : List Nat
  name : List Nat
  extra : List Nat
  payload : List Nat
deriving DecidableEq

/-- The on-disk bytes of one block. -/

def blockBytes (b : Block) : List Nat :=
  b.header ++ b.name ++ b.extra ++ b.payload

/-- A well-formed block: 30-byte header starting with the signature, whose
size fields at +18, +26, +28 match the actual payload, filename and
extra-field lengths, and with a nonempty filename. -/

def blockValid (b : Block) : Prop :=
  b.header.length = 30 ∧ b.header.take 4 = [80, 75, 3, 4] ∧
  readU16D b.header 26 = b.name.length ∧
  readU16D b.header 28 = b.extra.length ∧
  readU32D b.header 18 = b.payload.length ∧ b.name ≠ []

instance (b : Block) : Decidable (blockValid b) := by
  unfold blockValid
  infer_instance

def blocksBytes (bs : List Block) : List Nat :=
  (bs.map blockBytes).flatten

/-- The offsets at which the blocks start, when laid out from `k`. -/

def blockStarts : List Block → Nat → List Nat
  | [], _ => []
  | b :: bs, k => k :: blockStarts bs (k + (blockBytes b).length)

/-- The entry the scan emits for a block starting at `start`. -/

def entryOfBlock (b : Block) (start : Nat) : ZipEntry :=
  ⟨b.name, b.payload.length, readU32D b.header 22,
    start + 30 + b.name.length + b.extra.length⟩

/-- The entries the scan emits for blocks laid out from `k`. -/

def expectedEntries : List Block → Nat → List ZipEntry
  | [], _ => []
  | b :: bs, k => entryOfBlock b k :: expectedEntries bs (k + (blockBytes b).length)

/-- The number of positions of the body at which the 4-byte
local-file-header signature occurs. -/

def countSig (body : List Nat) : Nat :=
  ((Finset.range body.length).filter (fun p => sigB body p = true)).card

/-! ## Concrete exhibit buffers -/

/-- Archive body of length 32: a local file header at offset 0 with
compressed size 1, uncompressed size 1, filename length 1, extra length 0,
filename `"a"` (97) and payload `[7]`. -/

def exhibitC2 : List Nat :=
  [80, 75, 3, 4, 0, 0, 0, 0, 0, 0, 0, 0, 0, 0, 0, 0, 0, 0,
   1, 0, 0, 0, 1, 0, 0, 0, 1, 0, 0, 0, 97, 7]

/-- Binary-table buffer: magic `LPK\0`, version 1, one row
(`name="x"`, `size=2`, `dataOffset=27`), data bytes `[9, 9]` at offset 27. -/

def exhibitC1 : List Nat :=
  [76, 80, 75, 0, 1, 0, 0, 0, 1, 0, 0, 0,
   1, 0, 120, 0, 0, 0, 0, 2, 0, 0, 0, 27, 0, 0, 0, 9, 9]

/-- Binary-table buffer of length 43: magic, version 1, two rows —
`"a"` with `size=1`, `dataOffset=42` (in bounds) and `"b"` with `size=9`,
`dataOffset=42` (range `[42, 51)` overruns the end). -/

def exhibitC4 : List Nat :=
  [76, 80, 75, 0, 1, 0, 0, 0, 2, 0, 0, 0,
   1, 0, 97, 0, 0, 0, 0, 1, 0, 0, 0, 42, 0, 0, 0,
   1, 0, 98, 0, 0, 0, 0, 9, 0, 0, 0, 42, 0, 0, 0,
   7]

/-- A well-formed single archive block: 30-byte header with compressed
size 1, uncompressed size 1, filename length 1, extra length 0; filename
`"a"`, no extra field, payload `[7]`. -/

def exhibitC5Block : Block :=
  ⟨[80, 75, 3, 4, 0, 0, 0, 0, 0, 0, 0, 0, 0, 0, 0, 0, 0, 0,
    1, 0, 0, 0, 1, 0, 0, 0, 1, 0, 0, 0], [97], [], [7]⟩

/-- Binary-table buffer of length 29: magic, version 1, one row `"z"` with
`size=5` and `dataOffset=40`, entirely past the end of the buffer. -/

def exhibitC10 : List Nat :=
  [76, 80, 75, 0, 1, 0, 0, 0, 1, 0, 0, 0,
   1, 0, 122, 0, 0, 0, 0, 5, 0, 0, 0, 40, 0, 0, 0, 1, 2]

/-! ## Theorems -/

theorem sliceJS_eq_drop_take (l : List Nat) (a b : Nat) :
    sliceJS l a b = (l.drop a).take (b - a) := by
  simp [sliceJS, List.drop_take]

theorem length_sliceJS (l : List Nat) (a b : Nat) :
    (sliceJS l a b).length = min b l.length - min a l.length := by
  simp [sliceJS, List.length_drop, List.length_take]
  omega

theorem parseBinaryLPK_eq (buf : List Nat) :
    parseBinaryLPK buf =
      match binParsed buf with
      | none => .error "RangeError"
      | some (version, assets) => .ok (buildBinResult buf version assets) := by
  unfold parseBinaryLPK binParsed parseBinaryCore
  by_cases h : buf.length < 4 <;> simp [h]

theorem scanFromAux_congr (f1 : Nat) :
    ∀ (f2 offset : Nat) (body : List Nat), body.length - offset ≤ f1 →
      body.length - offset ≤ f2 →
      scanFromAux f1 body offset = scanFromAux f2 body offset := by
  induction f1 with
  | zero =>
    intro f2 offset body h1 h2
    have hc : ¬ offset + 30 < body.length := by omega
    cases f2 with
    | zero => rfl
    | succ g => simp [scanFromAux, hc]
  | succ f ih =>
    intro f2 offset body h1 h2
    by_cases hc : offset + 30 < body.length
    · cases f2 with
      | zero => omega
      | succ g =>
        simp only [scanFromAux, hc, if_true]
        by_cases hs : sigB body offset = true
        · simp only [hs, if_true]
          rw [ih g _ body (by omega) (by omega)]
        · simp only [Bool.not_eq_true] at hs
          simp only [hs, Bool.false_eq_true, if_false]
          exact ih g _ body (by omega) (by omega)
    · cases f2 with
      | zero => simp [scanFromAux, hc]
      | succ g => simp [scanFromAux, hc]

theorem scanFrom_stop (body : List Nat) (offset : Nat)
    (h : ¬ offset + 30 < body.length) : scanFrom body offset = [] := by
  unfold scanFrom
  rcases hn : body.length - offset with _ | n
  · rfl
  · simp [scanFromAux, h]

theorem scanFrom_hit (body : List Nat) (offset : Nat)
    (h : offset + 30 < body.length) (hs : sigB body offset = true) :
    scanFrom body offset =
      ⟨sliceJS body (offset + 30) (offset + 30 + readU16D body (offset + 26)),
        readU32D body (offset + 18), readU32D body (offset + 22),
        offset + 30 + readU16D body (offset + 26) + readU16D body (offset + 28)⟩
      :: scanFrom body (offset + 30 + readU16D body (offset + 26)
            + readU16D body (offset + 28) + readU32D body (offset + 18)) := by
  unfold scanFrom
  rcases hn : body.length - offset with _ | n
  · omega
  · have hcg := scanFromAux_congr n
      (body.length - (offset + 30 + readU16D body (offset + 26)
        + readU16D body (offset + 28) + readU32D body (offset + 18)))
      (offset + 30 + readU16D body (offset + 26) + readU16D body (offset + 28)
        + readU32D body (offset + 18)) body (by omega) (by omega)
    simp only [scanFromAux, h, if_true, hs]
    rw [hcg]

theorem scanFrom_miss (body : List Nat) (offset : Nat)
    (h : offset + 30 < body.length) (hs : sigB body offset = false) :
    scanFrom body offset = scanFrom body (offset + 1) := by
  unfold scanFrom
  rcases hn : body.length - offset with _ | n
  · omega
  · have hcg := scanFromAux_congr n (body.length - (offset + 1)) (offset + 1)
      body (by omega) (by omega)
    simp only [scanFromAux, h, if_true, hs, Bool.false_eq_true, if_false]
    exact hcg

/-! ## Association-list lemmas for object-property assignment -/

theorem mem_insertAssoc_self (m : List (List Nat × List Nat))
    (k v : List Nat) : (k, v) ∈ insertAssoc m k v := by
  unfold insertAssoc
  by_cases h : m.any (fun p => p.1 == k)
  · simp only [h, if_true]
    rcases List.any_eq_true.mp h with ⟨p, hp, hpk⟩
    refine List.mem_map.mpr ⟨p, hp, ?_⟩
    simp [hpk]
  · simp [h]

theorem mem_insertAssoc_of_ne (m : List (List Nat × List Nat))
    (k v : List Nat) (p : List Nat × List Nat) (hp : p ∈ m)
    (hne : p.1 ≠ k) : p ∈ insertAssoc m k v := by
  unfold insertAssoc
  by_cases h : m.any (fun q => q.1 == k)
  · simp only [h, if_true]
    refine List.mem_map.mpr ⟨p, hp, ?_⟩
    simp [hne]
  · simp only [h, if_false]
    exact List.mem_append_left _ hp

theorem mem_of_mem_insertAssoc (m : List (List Nat × List Nat))
    (k v : List Nat) (p : List Nat × List Nat)
    (hp : p ∈ insertAssoc m k v) : p ∈ m ∨ p = (k, v) := by
  unfold insertAssoc at hp
  by_cases h : m.any (fun q => q.1 == k)
  · simp only [h, if_true] at hp
    rcases List.mem_map.mp hp with ⟨q, hq, hqp⟩
    by_cases hqk : q.1 == k
    · simp [hqk] at hqp
      exact Or.inr hqp.symm
    · simp [hqk] at hqp
      exact Or.inl (hqp ▸ hq)
  · simp only [h, if_false] at hp
    rcases List.mem_append.mp hp with h1 | h1
    · exact Or.inl h1
    · simp at h1
      exact Or.inr h1

theorem exists_entry_append (l : List BinEntry) (x : BinEntry)
    (nm d : List Nat) (h : ∃ e ∈ l, e.filename = nm ∧ e.data = d) :
    ∃ e ∈ l ++ [x], e.filename = nm ∧ e.data = d := by
  rcases h with ⟨e, he, h2⟩
  exact ⟨e, List.mem_append_left _ he, h2⟩

theorem hasEntry_binStep_preserve (buf : List Nat) (r : BinResult)
    (a : Asset) (nm d : List Nat) (hne : a.name ≠ nm)
    (h : hasEntry r nm d) : hasEntry (binStep buf r a) nm d := by
  unfold binStep
  rcases h with h | h | h
  · split
    · exact Or.inl (exists_entry_append _ _ _ _ h)
    · split
      · exact Or.inl h
      · exact Or.inl h
  · split
    · exact Or.inr (Or.inl h)
    · split
      · exact Or.inr (Or.inl (exists_entry_append _ _ _ _ h))
      · exact Or.inr (Or.inl h)
  · split
    · exact Or.inr (Or.inr h)
    · split
      · exact Or.inr (Or.inr h)
      · refine Or.inr (Or.inr (mem_insertAssoc_of_ne _ _ _ _ h ?_))
        simpa using hne.symm

theorem hasEntry_binStep_self (buf : List Nat) (r : BinResult) (a : Asset) :
    hasEntry (binStep buf r a) a.name (extractData buf a) := by
  unfold binStep
  split
  · refine Or.inl ⟨⟨a.name, extractData buf a, extOf a.name⟩,
      List.mem_append_right _ ?_, rfl, rfl⟩
    exact List.mem_singleton_self _
  · split
    · refine Or.inr (Or.inl ⟨⟨a.name, extractData buf a, extOf a.name⟩,
        List.mem_append_right _ ?_, rfl, rfl⟩)
      exact List.mem_singleton_self _
    · exact Or.inr (Or.inr (mem_insertAssoc_self _ _ _))

theorem hasEntry_foldl_preserve (buf : List Nat) (rest : List Asset) :
    ∀ (r : BinResult) (nm d : List Nat), (∀ a ∈ rest, a.name ≠ nm) →
      hasEntry r nm d → hasEntry (rest.foldl (binStep buf) r) nm d := by
  induction rest with
  | nil => intro r nm d _ h; exact h
  | cons a rest ih =>
    intro r nm d hne h
    exact ih _ _ _ (fun b hb => hne b (List.mem_cons_of_mem _ hb))
      (hasEntry_binStep_preserve buf r a nm d (hne a (List.mem_cons_self _ _)) h)

theorem buildBin_hasEntry (buf : List Nat) (assets : List Asset) :
    ∀ (r : BinResult) (a : Asset), (assets.map Asset.name).Nodup →
      a ∈ assets → hasEntry (assets.foldl (binStep buf) r) a.name
        (extractData buf a) := by
  induction assets with
  | nil => intro r a _ ha; cases ha
  | cons b assets ih =>
    intro r a hnd ha
    simp only [List.map_cons, List.nodup_cons] at hnd
    rcases List.mem_cons.mp ha with rfl | ha
    · exact hasEntry_foldl_preserve buf assets _ _ _
        (fun c hc hceq => hnd.1 (hceq ▸ List.mem_map_of_mem _ hc))
        (hasEntry_binStep_self buf r a)
    · exact ih _ _ hnd.2 ha

/-! ## Soundness: every entry of a binary-parse result is a table row's
exact `slice` image -/

theorem buildBin_models_sound (buf : List Nat) (assets : List Asset) :
    ∀ (r : BinResult) (e : BinEntry),
      e ∈ (assets.foldl (binStep buf) r).models →
      e ∈ r.models ∨ ∃ a ∈ assets,
        e = ⟨a.name, extractData buf a, extOf a.name⟩ ∧
          extOf a.name ∈ modelExts := by
  induction assets with
  | nil => intro r e he; exact Or.inl he
  | cons a assets ih =>
    intro r e he
    rcases ih _ _ he with h | ⟨b, hb, h2⟩
    · unfold binStep at h
      split at h
      · rcases List.mem_append.mp h with h1 | h1
        · exact Or.inl h1
        · simp at h1
          exact Or.inr ⟨a, List.mem_cons_self _ _, by simp [h1], by assumption⟩
      · split at h
        · exact Or.inl h
        · exact Or.inl h
    · exact Or.inr ⟨b, List.mem_cons_of_mem _ hb, h2⟩

theorem buildBin_textures_sound (buf : List Nat) (assets : List Asset) :
    ∀ (r : BinResult) (e : BinEntry),
      e ∈ (assets.foldl (binStep buf) r).textures →
      e ∈ r.textures ∨ ∃ a ∈ assets,
        e = ⟨a.name, extractData buf a, extOf a.name⟩ ∧
          extOf a.name ∈ texExts := by
  induction assets with
  | nil => intro r e he; exact Or.inl he
  | cons a assets ih =>
    intro r e he
    rcases ih _ _ he with h | ⟨b, hb, h2⟩
    · unfold binStep at h
      split at h
      · exact Or.inl h
      · split at h
        · rcases List.mem_append.mp h with h1 | h1
          · exact Or.inl h1
          · simp at h1
            exact Or.inr ⟨a, List.mem_cons_self _ _, by simp [h1], by assumption⟩
        · exact Or.inl h
    · exact Or.inr ⟨b, List.mem_cons_of_mem _ hb, h2⟩

theorem buildBin_data_sound (buf : List Nat) (assets : List Asset) :
    ∀ (r : BinResult) (p : List Nat × List Nat),
      p ∈ (assets.foldl (binStep buf) r).dataEntries →
      p ∈ r.dataEntries ∨ ∃ a ∈ assets,
        p = (a.name, extractData buf a) ∧ extOf a.name ∉ modelExts ∧
          extOf a.name ∉ texExts := by
  induction assets with
  | nil => intro r p hp; exact Or.inl hp
  | cons a assets ih =>
    intro r p hp
    rcases ih _ _ hp with h | ⟨b, hb, h2⟩
    · unfold binStep at h
      split at h
      · exact Or.inl h
      · split at h
        · exact Or.inl h
        · rcases mem_of_mem_insertAssoc _ _ _ _ h with h1 | h1
          · exact Or.inl h1
          · exact Or.inr ⟨a, List.mem_cons_self _ _, h1, by assumption,
              by assumption⟩
    · exact Or.inr ⟨b, List.mem_cons_of_mem _ hb, h2⟩

theorem binStep_version (buf : List Nat) (r : BinResult) (a : Asset) :
    (binStep buf r a).version = r.version := by
  unfold binStep
  split
  · rfl
  · split <;> rfl

theorem buildBin_version (buf : List Nat) (assets : List Asset) :
    ∀ r : BinResult, (assets.foldl (binStep buf) r).version = r.version := by
  induction assets with
  | nil => intro r; rfl
  | cons a assets ih =>
    intro r
    rw [List.foldl_cons, ih, binStep_version]

/-! ## ZIP categorization lemmas -/

theorem texExts_not_modelExts : ∀ x ∈ texExts, x ∉ modelExts := by decide

theorem zipStep_textures_preserve (r r2 : ZipResult) (f : ZFile)
    (e : BinEntry) (hs : zipStep r f = .ok r2)
    (h : e ∈ r.textures) : e ∈ r2.textures := by
  unfold zipStep at hs
  split at hs
  · injection hs with hs
    exact hs ▸ h
  · split at hs
    · injection hs with hs
      exact hs ▸ h
    · split at hs
      · injection hs with hs
        exact hs ▸ List.mem_append_left _ h
      · split at hs
        · split at hs <;> cases hs
        · injection hs with hs
          exact hs ▸ h

theorem zipLoop_textures_preserve (files : List ZFile) :
    ∀ (r r2 : ZipResult) (e : BinEntry), zipLoop files r = .ok r2 →
      e ∈ r.textures → e ∈ r2.textures := by
  induction files with
  | nil =>
    intro r r2 e hl h
    injection hl with hl
    exact hl ▸ h
  | cons f files ih =>
    intro r r2 e hl h
    unfold zipLoop at hl
    rcases hs : zipStep r f with e2 | r1
    · rw [hs] at hl
      cases hl
    · rw [hs] at hl
      exact ih r1 r2 e hl (zipStep_textures_preserve r r1 f e hs h)

theorem zipStep_textures_self (r : ZipResult) (f : ZFile)
    (hd : f.dir = false) (ht : extOf f.name ∈ texExts) :
    zipStep r f =
      .ok { r with textures :=
        r.textures ++ [⟨f.name, f.data, extOf f.name⟩] } := by
  unfold zipStep
  rw [if_neg (by simp [hd]), if_neg (texExts_not_modelExts _ ht), if_pos ht]

theorem zip_textures_mem (files : List ZFile) :
    ∀ (r rOut : ZipResult) (f : ZFile), zipLoop files r = .ok rOut →
      f ∈ files → f.dir = false → extOf f.name ∈ texExts →
      (⟨f.name, f.data, extOf f.name⟩ : BinEntry) ∈ rOut.textures := by
  induction files with
  | nil => intro r rOut f _ hf; cases hf
  | cons g files ih =>
    intro r rOut f hl hf hd ht
    unfold zipLoop at hl
    rcases hs : zipStep r g with e2 | r1
    · rw [hs] at hl
      cases hl
    · rw [hs] at hl
      rcases List.mem_cons.mp hf with rfl | hf
      · rw [zipStep_textures_self r f hd ht] at hs
        injection hs with hs
        refine zipLoop_textures_preserve files r1 rOut _ hl ?_
        rw [← hs]
        exact List.mem_append_right _ (List.mem_singleton_self _)
      · exact ih r1 rOut f hl hf hd ht

theorem zipStep_models_sound (r r2 : ZipResult) (f : ZFile) (e : BinEntry)
    (hs : zipStep r f = .ok r2) (he : e ∈ r2.models) :
    e ∈ r.models ∨ (f.dir = false ∧ extOf f.name ∈ modelExts ∧
      e = ⟨f.name, f.data, extOf f.name⟩) := by
  unfold zipStep at hs
  split at hs
  · injection hs with hs
    exact Or.inl (hs ▸ he)
  · split at hs
    · injection hs with hs
      rw [← hs] at he
      rcases List.mem_append.mp he with h1 | h1
      · exact Or.inl h1
      · simp at h1
        refine Or.inr ⟨by simp_all, by assumption, by simp [h1]⟩
    · split at hs
      · injection hs with hs
        rw [← hs] at he
        exact Or.inl he
      · split at hs
        · split at hs <;> cases hs
        · injection hs with hs
          exact Or.inl (hs ▸ he)

theorem zipStep_textures_sound (r r2 : ZipResult) (f : ZFile) (e : BinEntry)
    (hs : zipStep r f = .ok r2) (he : e ∈ r2.textures) :
    e ∈ r.textures ∨ (f.dir = false ∧ extOf f.name ∈ texExts ∧
      e = ⟨f.name, f.data, extOf f.name⟩) := by
  unfold zipStep at hs
  split at hs
  · injection hs with hs
    exact Or.inl (hs ▸ he)
  · split at hs
    · injection hs with hs
      rw [← hs] at he
      exact Or.inl he
    · split at hs
      · injection hs with hs
        rw [← hs] at he
        rcases List.mem_append.mp he with h1 | h1
        · exact Or.inl h1
        · simp at h1
          refine Or.inr ⟨by simp_all, by assumption, by simp [h1]⟩
      · split at hs
        · split at hs <;> cases hs
        · injection hs with hs
          exact Or.inl (hs ▸ he)

theorem zipLoop_models_sound (files : List ZFile) :
    ∀ (r rOut : ZipResult) (e : BinEntry), zipLoop files r = .ok rOut →
      e ∈ rOut.models → e ∈ r.models ∨ ∃ f ∈ files, f.dir = false ∧
        extOf f.name ∈ modelExts ∧ e = ⟨f.name, f.data, extOf f.name⟩ := by
  induction files with
  | nil =>
    intro r rOut e hl he
    injection hl with hl
    exact Or.inl (hl ▸ he)
  | cons f files ih =>
    intro r rOut e hl he
    unfold zipLoop at hl
    rcases hs : zipStep r f with e2 | r1
    · rw [hs] at hl
      cases hl
    · rw [hs] at hl
      rcases ih r1 rOut e hl he with h | ⟨g, hg, h2⟩
      · rcases zipStep_models_sound r r1 f e hs h with h1 | h1
        · exact Or.inl h1
        · exact Or.inr ⟨f, List.mem_cons_self _ _, h1⟩
      · exact Or.inr ⟨g, List.mem_cons_of_mem _ hg, h2⟩

theorem zipLoop_textures_sound (files : List ZFile) :
    ∀ (r rOut : ZipResult) (e : BinEntry), zipLoop files r = .ok rOut →
      e ∈ rOut.textures → e ∈ r.textures ∨ ∃ f ∈ files, f.dir = false ∧
        extOf f.name ∈ texExts ∧ e = ⟨f.name, f.data, extOf f.name⟩ := by
  induction files with
  | nil =>
    intro r rOut e hl he
    injection hl with hl
    exact Or.inl (hl ▸ he)
  | cons f files ih =>
    intro r rOut e hl he
    unfold zipLoop at hl
    rcases hs : zipStep r f with e2 | r1
    · rw [hs] at hl
      cases hl
    · rw [hs] at hl
      rcases ih r1 rOut e hl he with h | ⟨g, hg, h2⟩
      · rcases zipStep_textures_sound r r1 f e hs h with h1 | h1
        · exact Or.inl h1
        · exact Or.inr ⟨f, List.mem_cons_self _ _, h1⟩
      · exact Or.inr ⟨g, List.mem_cons_of_mem _ hg, h2⟩

theorem zipStep_json_throws (r : ZipResult) (f : ZFile)
    (hd : f.dir = false) (hj : extOf f.name = asciiStr "json") :
    ∃ e, zipStep r f = .error e := by
  unfold zipStep
  rw [if_neg (by simp [hd]), if_neg (by simp [hj]; decide),
    if_neg (by simp [hj]; decide), if_pos (by simp [hj])]
  by_cases hok : f.jsonOk
  · exact ⟨"TypeError", by simp [hok]⟩
  · exact ⟨"SyntaxError", by simp [hok]⟩

theorem zip_json_no_manifest (files : List ZFile) :
    ∀ (r : ZipResult) (f : ZFile), f ∈ files → f.dir = false →
      extOf f.name = asciiStr "json" →
      ∃ e, zipLoop files r = .error e := by
  induction files with
  | nil => intro r f hf; cases hf
  | cons g files ih =>
    intro r f hf hd hj
    unfold zipLoop
    rcases hs : zipStep r g with e2 | r1
    · exact ⟨e2, rfl⟩
    · rcases List.mem_cons.mp hf with rfl | hf
      · obtain ⟨e, he⟩ := zipStep_json_throws r f hd hj
        rw [he] at hs
        cases hs
      · exact ih r1 f hf hd hj
/-! ## Binary-parser retention of unknown-extension rows -/

theorem binStep_data_preserve (buf : List Nat) (r : BinResult) (a : Asset)
    (nm d : List Nat) (hne : a.name ≠ nm)
    (h : (nm, d) ∈ r.dataEntries) :
    (nm, d) ∈ (binStep buf r a).dataEntries := by
  unfold binStep
  split
  · exact h
  · split
    · exact h
    · refine mem_insertAssoc_of_ne _ _ _ _ h ?_
      simpa using hne.symm

theorem binStep_data_self (buf : List Nat) (r : BinResult) (a : Asset)
    (hm : extOf a.name ∉ modelExts) (ht : extOf a.name ∉ texExts) :
    (a.name, extractData buf a) ∈ (binStep buf r a).dataEntries := by
  unfold binStep
  rw [if_neg hm, if_neg ht]
  exact mem_insertAssoc_self _ _ _

theorem binStep_data_foldl_preserve (buf : List Nat) (rest : List Asset) :
    ∀ (r : BinResult) (nm d : List Nat), (∀ a ∈ rest, a.name ≠ nm) →
      (nm, d) ∈ r.dataEntries →
      (nm, d) ∈ (rest.foldl (binStep buf) r).dataEntries := by
  induction rest with
  | nil => intro r nm d _ h; exact h
  | cons a rest ih =>
    intro r nm d hne h
    exact ih _ _ _ (fun b hb => hne b (List.mem_cons_of_mem _ hb))
      (binStep_data_preserve buf r a nm d (hne a (List.mem_cons_self _ _)) h)

theorem buildBin_data_mem (buf : List Nat) (assets : List Asset) :
    ∀ (r : BinResult) (a : Asset), (assets.map Asset.name).Nodup →
      a ∈ assets → extOf a.name ∉ modelExts → extOf a.name ∉ texExts →
      (a.name, extractData buf a) ∈
        (assets.foldl (binStep buf) r).dataEntries := by
  induction assets with
  | nil => intro r a _ ha; cases ha
  | cons b assets ih =>
    intro r a hnd ha hm ht
    simp only [List.map_cons, List.nodup_cons] at hnd
    rcases List.mem_cons.mp ha with rfl | ha
    · exact binStep_data_foldl_preserve buf assets _ _ _
        (fun c hc hceq => hnd.1 (hceq ▸ List.mem_map_of_mem _ hc))
        (binStep_data_self buf r a hm ht)
    · exact ih _ _ hnd.2 ha hm ht

theorem blocksBytes_cons (b : Block) (bs : List Block) :
    blocksBytes (b :: bs) = blockBytes b ++ blocksBytes bs := by
  simp [blocksBytes]

theorem blockBytes_length (b : Block) (h30 : b.header.length = 30) :
    (blockBytes b).length =
      30 + b.name.length + b.extra.length + b.payload.length := by
  simp [blockBytes, h30]
  omega

/-! ## Read locality under list append -/

theorem getD_append_add (pre rest : List Nat) (k d : Nat) :
    (pre ++ rest).getD (pre.length + k) d = rest.getD k d := by
  rw [List.getD_append_right pre rest d (pre.length + k) (by omega)]
  congr 1
  omega

theorem readU16D_shift (pre rest : List Nat) (k : Nat) :
    readU16D (pre ++ rest) (pre.length + k) = readU16D rest k := by
  unfold readU16D
  have e1 : pre.length + k + 1 = pre.length + (k + 1) := by omega
  rw [e1, getD_append_add, getD_append_add]

theorem readU32D_shift (pre rest : List Nat) (k : Nat) :
    readU32D (pre ++ rest) (pre.length + k) = readU32D rest k := by
  unfold readU32D
  have e1 : pre.length + k + 1 = pre.length + (k + 1) := by omega
  have e2 : pre.length + k + 2 = pre.length + (k + 2) := by omega
  have e3 : pre.length + k + 3 = pre.length + (k + 3) := by omega
  rw [e1, e2, e3, getD_append_add, getD_append_add, getD_append_add,
    getD_append_add]

theorem sigB_shift (pre rest : List Nat) (p : Nat) :
    sigB (pre ++ rest) (pre.length + p) = sigB rest p := by
  unfold sigB
  have e1 : pre.length + p + 1 = pre.length + (p + 1) := by omega
  have e2 : pre.length + p + 2 = pre.length + (p + 2) := by omega
  have e3 : pre.length + p + 3 = pre.length + (p + 3) := by omega
  rw [e1, e2, e3, getD_append_add, getD_append_add, getD_append_add,
    getD_append_add]

theorem sliceJS_shift (pre rest : List Nat) (a b : Nat) :
    sliceJS (pre ++ rest) (pre.length + a) (pre.length + b) =
      sliceJS rest a b := by
  rw [sliceJS_eq_drop_take, sliceJS_eq_drop_take, List.drop_append]
  congr 1
  omega

theorem sliceJS_shift0 (pre rest : List Nat) (b : Nat) :
    sliceJS (pre ++ rest) pre.length (pre.length + b) = sliceJS rest 0 b := by
  have h := sliceJS_shift pre rest 0 b
  simpa using h

theorem readU16D_prefix (l suf : List Nat) (k : Nat) (h : k + 2 ≤ l.length) :
    readU16D (l ++ suf) k = readU16D l k := by
  unfold readU16D
  rw [List.getD_append l suf 0 k (by omega),
    List.getD_append l suf 0 (k + 1) (by omega)]

theorem readU32D_prefix (l suf : List Nat) (k : Nat) (h : k + 4 ≤ l.length) :
    readU32D (l ++ suf) k = readU32D l k := by
  unfold readU32D
  rw [List.getD_append l suf 0 k (by omega),
    List.getD_append l suf 0 (k + 1) (by omega),
    List.getD_append l suf 0 (k + 2) (by omega),
    List.getD_append l suf 0 (k + 3) (by omega)]

theorem sigB_of_header (pre header tail : List Nat)
    (h4 : header.take 4 = [80, 75, 3, 4]) :
    sigB (pre ++ (header ++ tail)) pre.length = true := by
  have e0 : pre.length = pre.length + 0 := by omega
  rw [e0, sigB_shift]
  have hdr4 : header ++ tail = [80, 75, 3, 4] ++ (header.drop 4 ++ tail) := by
    conv_lhs => rw [← List.take_append_drop 4 header, h4]
    rw [List.append_assoc]
  rw [hdr4]
  unfold sigB
  rw [List.getD_append _ _ 0 0 (by simp),
    List.getD_append _ _ 0 1 (by simp),
    List.getD_append _ _ 0 2 (by simp),
    List.getD_append _ _ 0 3 (by simp)]
  rfl

theorem scanFrom_no_sig_from (body : List Nat) (off0 : Nat)
    (hns : ∀ p, off0 ≤ p → p + 30 < body.length → sigB body p = false) :
    ∀ (n off : Nat), off0 ≤ off → body.length - off ≤ n →
      scanFrom body off = [] := by
  intro n
  induction n with
  | zero =>
    intro off _ h
    exact scanFrom_stop body off (by omega)
  | succ n ih =>
    intro off h0 h
    by_cases hc : off + 30 < body.length
    · rw [scanFrom_miss body off hc (hns off h0 hc)]
      exact ih (off + 1) (by omega) (by omega)
    · exact scanFrom_stop body off hc

/-- The scan consumes a well-formed layout block by block: starting at the
first block's offset it emits exactly that block's entry and resumes right
past the block, never rescanning consumed bytes, until only the
signature-free trailing bytes remain. -/

theorem scan_blocks (blocks : List Block) :
    ∀ (pre trailing : List Nat), (∀ b ∈ blocks, blockValid b) →
      (∀ p, p + 30 < trailing.length → sigB trailing p = false) →
      scanFrom (pre ++ (blocksBytes blocks ++ trailing)) pre.length
        = expectedEntries blocks pre.length := by
  induction blocks with
  | nil =>
    intro pre trailing _ htr
    show scanFrom (pre ++ (blocksBytes [] ++ trailing)) pre.length = []
    have hb : blocksBytes [] ++ trailing = trailing := by
      simp [blocksBytes]
    rw [hb]
    refine scanFrom_no_sig_from (pre ++ trailing) pre.length ?_
      (pre ++ trailing).length pre.length le_rfl (by omega)
    intro p hp hlt
    have hq : p = pre.length + (p - pre.length) := by omega
    rw [hq, sigB_shift]
    apply htr
    rw [List.length_append] at hlt
    omega
  | cons b bs ih =>
    intro pre trailing hv htr
    obtain ⟨h30, h4, h26, h28, h18, hname⟩ := hv b (List.mem_cons_self _ _)
    have hnl : 0 < b.name.length := List.length_pos.mpr hname
    have hbody : blocksBytes (b :: bs) ++ trailing
        = b.header ++ (b.name ++ (b.extra ++ (b.payload
            ++ (blocksBytes bs ++ trailing)))) := by
      rw [blocksBytes_cons, blockBytes]
      simp [List.append_assoc]
    rw [hbody]
    have hlen : (pre ++ (b.header ++ (b.name ++ (b.extra ++ (b.payload
        ++ (blocksBytes bs ++ trailing)))))).length
        = pre.length + 30 + b.name.length + b.extra.length
          + b.payload.length + (blocksBytes bs ++ trailing).length := by
      simp [h30]
      omega
    have hc : pre.length + 30 < (pre ++ (b.header ++ (b.name ++ (b.extra
        ++ (b.payload ++ (blocksBytes bs ++ trailing)))))).length := by
      rw [hlen]
      omega
    have hs : sigB (pre ++ (b.header ++ (b.name ++ (b.extra ++ (b.payload
        ++ (blocksBytes bs ++ trailing)))))) pre.length = true :=
      sigB_of_header pre b.header _ h4
    rw [scanFrom_hit _ _ hc hs]
    have hr16a : readU16D (pre ++ (b.header ++ (b.name ++ (b.extra
        ++ (b.payload ++ (blocksBytes bs ++ trailing)))))) (pre.length + 26)
        = b.name.length := by
      rw [readU16D_shift, readU16D_prefix _ _ _ (by omega), h26]
    have hr16b : readU16D (pre ++ (b.header ++ (b.name ++ (b.extra
        ++ (b.payload ++ (blocksBytes bs ++ trailing)))))) (pre.length + 28)
        = b.extra.length := by
      rw [readU16D_shift, readU16D_prefix _ _ _ (by omega), h28]
    have hr32a : readU32D (pre ++ (b.header ++ (b.name ++ (b.extra
        ++ (b.payload ++ (blocksBytes bs ++ trailing)))))) (pre.length + 18)
        = b.payload.length := by
      rw [readU32D_shift, readU32D_prefix _ _ _ (by omega), h18]
    have hr32b : readU32D (pre ++ (b.header ++ (b.name ++ (b.extra
        ++ (b.payload ++ (blocksBytes bs ++ trailing)))))) (pre.length + 22)
        = readU32D b.header 22 := by
      rw [readU32D_shift, readU32D_prefix _ _ _ (by omega)]
    have hname2 : sliceJS (pre ++ (b.header ++ (b.name ++ (b.extra
        ++ (b.payload ++ (blocksBytes bs ++ trailing))))))
        (pre.length + 30) (pre.length + 30 + b.name.length) = b.name := by
      have hassoc : pre ++ (b.header ++ (b.name ++ (b.extra ++ (b.payload
          ++ (blocksBytes bs ++ trailing)))))
          = (pre ++ b.header) ++ (b.name ++ (b.extra ++ (b.payload
            ++ (blocksBytes bs ++ trailing)))) := by
        rw [List.append_assoc]
      have hl2 : pre.length + 30 = (pre ++ b.header).length := by
        simp [h30]
      rw [hassoc, hl2, sliceJS_shift0, sliceJS_eq_drop_take]
      simp [List.take_left]
    rw [hr16a, hr16b, hr32a, hr32b, hname2]
    have hnext : pre.length + 30 + b.name.length + b.extra.length
        + b.payload.length
        = (pre ++ blockBytes b).length := by
      simp [blockBytes, h30]
      omega
    have hassoc2 : pre ++ (b.header ++ (b.name ++ (b.extra ++ (b.payload
        ++ (blocksBytes bs ++ trailing)))))
        = (pre ++ blockBytes b) ++ (blocksBytes bs ++ trailing) := by
      rw [blockBytes]
      simp [List.append_assoc]
    rw [hnext, hassoc2, ih (pre ++ blockBytes b) trailing
      (fun c hc2 => hv c (List.mem_cons_of_mem _ hc2)) htr]
    have hexp : expectedEntries (b :: bs) pre.length
        = entryOfBlock b pre.length
          :: expectedEntries bs (pre.length + (blockBytes b).length) := rfl
    rw [hexp]
    congr 1
    rw [List.length_append]

theorem blockStarts_ge (bs : List Block) :
    ∀ (k p : Nat), p ∈ blockStarts bs k → k ≤ p := by
  induction bs with
  | nil => intro k p hp; cases hp
  | cons b bs ih =>
    intro k p hp
    rcases List.mem_cons.mp hp with rfl | hp
    · exact le_rfl
    · have := ih _ _ hp
      omega

theorem blockStarts_nodup (bs : List Block) :
    ∀ k : Nat, (∀ b ∈ bs, blockValid b) → (blockStarts bs k).Nodup := by
  induction bs with
  | nil => intro k _; exact List.nodup_nil
  | cons b bs ih =>
    intro k hv
    have h30 : b.header.length = 30 := (hv b (List.mem_cons_self _ _)).1
    have hpos : 0 < (blockBytes b).length := by
      rw [blockBytes_length b h30]
      omega
    refine List.nodup_cons.mpr ⟨?_, ih _ (fun c hc => hv c (List.mem_cons_of_mem _ hc))⟩
    intro hk
    have := blockStarts_ge bs _ _ hk
    omega

theorem blockStarts_length (bs : List Block) :
    ∀ k : Nat, (blockStarts bs k).length = bs.length := by
  induction bs with
  | nil => intro k; rfl
  | cons b bs ih =>
    intro k
    simp [blockStarts, ih]

theorem expectedEntries_length (bs : List Block) :
    ∀ k : Nat, (expectedEntries bs k).length = bs.length := by
  induction bs with
  | nil => intro k; rfl
  | cons b bs ih =>
    intro k
    simp [expectedEntries, ih]

theorem blockStarts_add_lt (bs : List Block) :
    ∀ k : Nat, (∀ b ∈ bs, blockValid b) → ∀ p ∈ blockStarts bs k,
      p + 30 ≤ k + (blocksBytes bs).length := by
  induction bs with
  | nil => intro k _ p hp; cases hp
  | cons b bs ih =>
    intro k hv p hp
    have h30 : b.header.length = 30 := (hv b (List.mem_cons_self _ _)).1
    have hlen : (blocksBytes (b :: bs)).length
        = (blockBytes b).length + (blocksBytes bs).length := by
      rw [blocksBytes_cons, List.length_append]
    have hb30 : 30 ≤ (blockBytes b).length := by
      rw [blockBytes_length b h30]
      omega
    rcases List.mem_cons.mp hp with rfl | hp
    · omega
    · have := ih _ (fun c hc => hv c (List.mem_cons_of_mem _ hc)) p hp
      omega

theorem sig_at_blockStarts (blocks : List Block) :
    ∀ (pre trailing : List Nat), (∀ b ∈ blocks, blockValid b) →
      ∀ p ∈ blockStarts blocks pre.length,
        sigB (pre ++ (blocksBytes blocks ++ trailing)) p = true := by
  induction blocks with
  | nil => intro pre trailing _ p hp; cases hp
  | cons b bs ih =>
    intro pre trailing hv p hp
    obtain ⟨h30, h4, _, _, _, _⟩ := hv b (List.mem_cons_self _ _)
    have hbody : blocksBytes (b :: bs) ++ trailing
        = b.header ++ (b.name ++ (b.extra ++ (b.payload
            ++ (blocksBytes bs ++ trailing)))) := by
      rw [blocksBytes_cons, blockBytes]
      simp [List.append_assoc]
    rcases List.mem_cons.mp hp with rfl | hp
    · rw [hbody]
      exact sigB_of_header pre b.header _ h4
    · have hassoc : pre ++ (blocksBytes (b :: bs) ++ trailing)
          = (pre ++ blockBytes b) ++ (blocksBytes bs ++ trailing) := by
        rw [blocksBytes_cons]
        simp [List.append_assoc]
      have hplen : pre.length + (blockBytes b).length
          = (pre ++ blockBytes b).length := by
        rw [List.length_append]
      rw [hassoc]
      refine ih (pre ++ blockBytes b) trailing
        (fun c hc => hv c (List.mem_cons_of_mem _ hc)) p ?_
      rw [← hplen]
      exact hp

theorem countSig_blocks (blocks : List Block) (trailing : List Nat)
    (hv : ∀ b ∈ blocks, blockValid b)
    (hsig : ∀ p < (blocksBytes blocks ++ trailing).length,
      sigB (blocksBytes blocks ++ trailing) p = true →
        p ∈ blockStarts blocks 0) :
    countSig (blocksBytes blocks ++ trailing) = blocks.length := by
  unfold countSig
  have hset : (Finset.range (blocksBytes blocks ++ trailing).length).filter
      (fun p => sigB (blocksBytes blocks ++ trailing) p = true)
      = (blockStarts blocks 0).toFinset := by
    ext p
    simp only [Finset.mem_filter, Finset.mem_range, List.mem_toFinset]
    constructor
    · rintro ⟨hp, hq⟩
      exact hsig p hp hq
    · intro hp
      have h1 : sigB (blocksBytes blocks ++ trailing) p = true := by
        have h2 := sig_at_blockStarts blocks [] trailing hv p (by simpa using hp)
        simpa using h2
      have h2 : p + 30 ≤ (blocksBytes blocks).length := by
        have := blockStarts_add_lt blocks 0 hv p hp
        omega
      refine ⟨?_, h1⟩
      rw [List.length_append]
      omega
  rw [hset, List.toFinset_card_of_nodup (blockStarts_nodup blocks 0 hv),
    blockStarts_length]

/-! ## Claim theorems -/

/-- C8: for every input buffer, including the empty buffer and arbitrarily
malformed ones, `detectFormat` terminates without throwing (it is a total
function of the bytes; every JavaScript operation it performs — typed-array
indexing, non-fatal `TextDecoder.decode`, `trim` — is total) and returns
exactly one tag of the closed set {zip, json, binary}, falling back to the
binary tag when neither the ZIP nor the JSON signature matches. -/

theorem c8_detectFormat_total_closed :
    (∀ buf : List Nat, detectFormat buf = .zip ∨ detectFormat buf = .json ∨
      detectFormat buf = .binary) ∧
    (∀ buf : List Nat, zipCondB buf = false → jsonCondB buf = false →
      detectFormat buf = .binary) := by
  constructor
  · intro buf
    unfold detectFormat
    split
    · exact Or.inl rfl
    · split
      · exact Or.inr (Or.inl rfl)
      · exact Or.inr (Or.inr rfl)
  · intro buf hz hj
    simp [detectFormat, hz, hj]

/-- Witness for C8 at the empty buffer. -/

theorem c8_detectFormat_total_closed_witness :
    zipCondB [] = false ∧ jsonCondB [] = false ∧
      detectFormat [] = .binary :=
  ⟨by decide, by decide,
    c8_detectFormat_total_closed.2 [] (by decide) (by decide)⟩

/-- C3 counterexample: a buffer beginning with the fixed 8-byte magic prefix
`b8 fb 46 7e 00 00 00 00` that precedes an embedded archive (and not with
`PK`) is tagged `binary` by `detectFormat`, not `zip` — the sniffer never
checks the 8-byte magic prefix. -/

theorem c3_counterexample :
    detectFormat [184, 251, 70, 126, 0, 0, 0, 0] = .binary ∧
      FormatTag.binary ≠ FormatTag.zip := by
  decide

/-- C3 amended: `detectFormat` returns the nested-archive tag exactly when
byte 0 equals 0x50 and byte 1 equals 0x4B; the fixed 8-byte magic prefix is
not consulted, so a buffer beginning with it (and not with `PK`) is tagged
`binary`. -/

theorem c3_amended_zip_iff_pk :
    (∀ buf : List Nat, detectFormat buf = .zip ↔
      (buf.getD 0 0 = 80 ∧ buf.getD 1 0 = 75)) ∧
    detectFormat [184, 251, 70, 126, 0, 0, 0, 0] = .binary := by
  constructor
  · intro buf
    have hzc : zipCondB buf = true ↔
        (buf.getD 0 0 = 80 ∧ buf.getD 1 0 = 75) := by
      simp [zipCondB]
    unfold detectFormat
    by_cases hz : zipCondB buf
    · rw [if_pos hz]
      exact iff_of_true rfl (hzc.mp hz)
    · rw [if_neg hz]
      refine iff_of_false ?_ (fun hpk => hz (hzc.mpr hpk))
      split <;> simp
  · decide

/-- C9: on a binary-table buffer whose first 4 bytes differ from `'LPK\0'`,
`parseBinaryLPK` does not abort: it logs the recoverable warning and parses
from a cursor reset to offset 0, so the version is read at offset 0, the
entry count at offset 4 and the table from offset 8 — otherwise exactly the
parse performed for a magic-matching buffer. -/

theorem c9_magic_mismatch_continues (buf : List Nat)
    (hlen : 4 ≤ buf.length) (hm : buf.take 4 ≠ [76, 80, 75, 0]) :
    parseBinaryLPK buf = parseBinaryCore buf 0 ∧
    binWarnings buf =
      ["LPK magic number mismatch, attempting to parse anyway..."] ∧
    ∀ r : BinResult, parseBinaryLPK buf = .ok r →
      ∃ count assets, readUInt32LE buf 0 = some r.version ∧
        readUInt32LE buf 4 = some count ∧
        readRows buf 8 count = some assets ∧
        r = buildBinResult buf r.version assets := by
  have hmb : magicOk buf = false := by
    unfold magicOk
    simpa using hm
  have hlt : ¬ buf.length < 4 := by omega
  refine ⟨?_, ?_, ?_⟩
  · simp [parseBinaryLPK, hlt, hmb]
  · simp [binWarnings, hlt, hmb]
  · intro r hr
    rw [parseBinaryLPK_eq] at hr
    rcases hb : binParsed buf with _ | ⟨v, assets⟩
    · rw [hb] at hr; cases hr
    · rw [hb] at hr
      have hrr : r = buildBinResult buf v assets := by
        have h2 : (Except.ok (buildBinResult buf v assets)
            : Except String BinResult) = .ok r := hr
        injection h2 with h3
        exact h3.symm
      have hba : binAssetsAt buf 0 = some (v, assets) := by
        rw [binParsed, if_neg hlt, hmb] at hb
        simpa using hb
      unfold binAssetsAt at hba
      simp only [bind, Option.bind_eq_some, Option.pure_def,
        Option.some.injEq, Prod.mk.injEq] at hba
      obtain ⟨a, ha1, b, hb1, c, hc1, rfl, rfl⟩ := hba
      have hver : r.version = a := by
        rw [hrr, buildBinResult, buildBin_version]
      refine ⟨b, c, ?_, ?_, ?_, ?_⟩
      · rw [hver]
        exact ha1
      · simpa using hb1
      · simpa using hc1
      · have hva : (buildBinResult buf a c).version = a := by
          rw [buildBinResult, buildBin_version]
        rw [hrr, hva]

theorem parseBinaryLPK_ok (buf : List Nat) (version : Nat)
    (assets : List Asset) (hp : binParsed buf = some (version, assets)) :
    parseBinaryLPK buf = .ok (buildBinResult buf version assets) := by
  rw [parseBinaryLPK_eq, hp]

theorem parseBinaryLPK_ok_inv (buf : List Nat) (version : Nat)
    (assets : List Asset) (r : BinResult)
    (hp : binParsed buf = some (version, assets))
    (hok : parseBinaryLPK buf = .ok r) :
    r = buildBinResult buf version assets := by
  rw [parseBinaryLPK_ok buf version assets hp] at hok
  injection hok with h
  exact h.symm

theorem extractData_eq_drop_take (buf : List Nat) (a : Asset) :
    extractData buf a = (buf.drop a.dataOffset).take a.size := by
  rw [extractData, sliceJS_eq_drop_take]
  congr 1
  omega

theorem extractData_length (buf : List Nat) (a : Asset) :
    (extractData buf a).length =
      min (a.dataOffset + a.size) buf.length -
        min a.dataOffset buf.length := by
  rw [extractData, length_sliceJS]

theorem extractData_length_of_le (buf : List Nat) (a : Asset)
    (h : a.dataOffset + a.size ≤ buf.length) :
    (extractData buf a).length = a.size := by
  rw [extractData_length]
  omega

/-- C1: on a binary-table buffer in which every table row satisfies
`dataOffset + size ≤ buffer length`, every entry of the returned manifest
carries exactly the bytes `buffer[dataOffset .. dataOffset + size)` of its
row — the byte length equals the declared `size`, and the slice is taken at
the absolute offset `dataOffset` from the start of the whole buffer. -/

theorem c1_binary_extract_exact (buf : List Nat) (version : Nat)
    (assets : List Asset) (r : BinResult)
    (hp : binParsed buf = some (version, assets))
    (hok : parseBinaryLPK buf = .ok r)
    (hb : ∀ a ∈ assets, a.dataOffset + a.size ≤ buf.length) :
    (∀ e ∈ r.models, ∃ a ∈ assets,
      e.data = (buf.drop a.dataOffset).take a.size ∧
        e.data.length = a.size) ∧
    (∀ e ∈ r.textures, ∃ a ∈ assets,
      e.data = (buf.drop a.dataOffset).take a.size ∧
        e.data.length = a.size) ∧
    (∀ p ∈ r.dataEntries, ∃ a ∈ assets,
      p.2 = (buf.drop a.dataOffset).take a.size ∧
        p.2.length = a.size) := by
  have hr := parseBinaryLPK_ok_inv buf version assets r hp hok
  subst hr
  refine ⟨?_, ?_, ?_⟩
  · intro e he
    rw [buildBinResult] at he
    rcases buildBin_models_sound buf assets _ e he with h | ⟨a, ha, he2, _⟩
    · cases h
    · refine ⟨a, ha, ?_, ?_⟩
      · rw [he2, ← extractData_eq_drop_take]
      · rw [he2]
        exact extractData_length_of_le buf a (hb a ha)
  · intro e he
    rw [buildBinResult] at he
    rcases buildBin_textures_sound buf assets _ e he with h | ⟨a, ha, he2, _⟩
    · cases h
    · refine ⟨a, ha, ?_, ?_⟩
      · rw [he2, ← extractData_eq_drop_take]
      · rw [he2]
        exact extractData_length_of_le buf a (hb a ha)
  · intro p hp2
    rw [buildBinResult] at hp2
    rcases buildBin_data_sound buf assets _ p hp2 with h | ⟨a, ha, he2, _⟩
    · cases h
    · refine ⟨a, ha, ?_, ?_⟩
      · rw [he2, ← extractData_eq_drop_take]
      · rw [he2]
        exact extractData_length_of_le buf a (hb a ha)

/-- Witness for C1 on `exhibitC1`: one in-bounds row `"x"` of size 2 at
offset 27, producing the data entry `[9, 9]`. -/

theorem c1_binary_extract_exact_witness :
    binParsed exhibitC1 = some (1, [⟨[120], 0, 2, 27⟩]) ∧
    parseBinaryLPK exhibitC1 = .ok ⟨1, [], [], [([120], [9, 9])]⟩ ∧
    (∀ a ∈ [(⟨[120], 0, 2, 27⟩ : Asset)],
      a.dataOffset + a.size ≤ exhibitC1.length) ∧
    ((∀ e ∈ (⟨1, [], [], [([120], [9, 9])]⟩ : BinResult).models,
        ∃ a ∈ [(⟨[120], 0, 2, 27⟩ : Asset)],
          e.data = (exhibitC1.drop a.dataOffset).take a.size ∧
            e.data.length = a.size) ∧
      (∀ e ∈ (⟨1, [], [], [([120], [9, 9])]⟩ : BinResult).textures,
        ∃ a ∈ [(⟨[120], 0, 2, 27⟩ : Asset)],
          e.data = (exhibitC1.drop a.dataOffset).take a.size ∧
            e.data.length = a.size) ∧
      (∀ p ∈ (⟨1, [], [], [([120], [9, 9])]⟩ : BinResult).dataEntries,
        ∃ a ∈ [(⟨[120], 0, 2, 27⟩ : Asset)],
          p.2 = (exhibitC1.drop a.dataOffset).take a.size ∧
            p.2.length = a.size)) :=
  ⟨by decide, rfl, by decide,
    c1_binary_extract_exact exhibitC1 1 [⟨[120], 0, 2, 27⟩]
      ⟨1, [], [], [([120], [9, 9])]⟩ (by decide) rfl (by decide)⟩

/-- C10: a table row whose byte range `[dataOffset, dataOffset + size)`
extends past the end of the buffer does not make `parseBinaryLPK` throw
and is not recorded as any error marker: `ArrayBuffer.slice` clamps, so the
row's entry is present with data of the clamped length
`min(len, dataOffset + size) − min(len, dataOffset)` (truncated
subtraction), and every other row is still processed into its own entry. -/

theorem c10_slice_clamps_no_error (buf : List Nat) (version : Nat)
    (assets : List Asset)
    (hp : binParsed buf = some (version, assets))
    (hnd : (assets.map Asset.name).Nodup) :
    ∃ r, parseBinaryLPK buf = .ok r ∧
      (∀ a ∈ assets, hasEntry r a.name (extractData buf a)) ∧
      (∀ a ∈ assets, (extractData buf a).length =
        min (a.dataOffset + a.size) buf.length -
          min a.dataOffset buf.length) := by
  refine ⟨buildBinResult buf version assets,
    parseBinaryLPK_ok buf version assets hp, ?_, ?_⟩
  · intro a ha
    rw [buildBinResult]
    exact buildBin_hasEntry buf assets _ a hnd ha
  · intro a _
    exact extractData_length buf a

/-- Witness for C10 on `exhibitC10`: the single row `"z"` declares
`size = 5` at `dataOffset = 40` in a 29-byte buffer; the parse succeeds and
the entry is present with clamped (empty) data. -/

theorem c10_slice_clamps_no_error_witness :
    binParsed exhibitC10 = some (1, [⟨[122], 0, 5, 40⟩]) ∧
    ([(⟨[122], 0, 5, 40⟩ : Asset)].map Asset.name).Nodup ∧
    (∃ r, parseBinaryLPK exhibitC10 = .ok r ∧
      (∀ a ∈ [(⟨[122], 0, 5, 40⟩ : Asset)],
        hasEntry r a.name (extractData exhibitC10 a)) ∧
      (∀ a ∈ [(⟨[122], 0, 5, 40⟩ : Asset)],
        (extractData exhibitC10 a).length =
          min (a.dataOffset + a.size) exhibitC10.length -
            min a.dataOffset exhibitC10.length)) :=
  ⟨by decide, by decide,
    c10_slice_clamps_no_error exhibitC10 1 [⟨[122], 0, 5, 40⟩]
      (by decide) (by decide)⟩

/-- C4 counterexample: on `exhibitC4`, whose row `"b"` declares `size = 9`
at `dataOffset = 42` in a 43-byte buffer, `parseBinaryLPK` does not record
any `TruncatedEntry` marker — no such marker exists in the code — and does
not throw: it returns an ordinary manifest in which `"b"` carries the
silently clamped single byte `[7]` (length 1, not the declared 9), exactly
like the intact sibling `"a"`. -/

theorem c4_counterexample :
    parseBinaryLPK exhibitC4 =
      .ok ⟨1, [], [], [([97], [7]), ([98], [7])]⟩ ∧
    binParsed exhibitC4 =
      some (1, [⟨[97], 0, 1, 42⟩, ⟨[98], 0, 9, 42⟩]) ∧
    ([7] : List Nat).length ≠ 9 :=
  ⟨rfl, by decide, by decide⟩

/-- C4 amended: a table row with nonzero declared size whose range exceeds
the buffer length does not abort the parse and is not marked: the parse
returns an ordinary manifest, the offending row's entry is present with
silently clamped data strictly shorter than its declared size, and every
in-bounds row is still extracted exactly, in the same manifest. -/

theorem c4_truncated_row_clamped (buf : List Nat) (version : Nat)
    (assets : List Asset) (a b : Asset)
    (hp : binParsed buf = some (version, assets))
    (hnd : (assets.map Asset.name).Nodup)
    (ha : a ∈ assets) (hbad : buf.length < a.dataOffset + a.size)
    (hsz : 0 < a.size)
    (hb : b ∈ assets) (hgood : b.dataOffset + b.size ≤ buf.length) :
    ∃ r, parseBinaryLPK buf = .ok r ∧
      hasEntry r a.name (extractData buf a) ∧
      (extractData buf a).length < a.size ∧
      hasEntry r b.name ((buf.drop b.dataOffset).take b.size) ∧
      ((buf.drop b.dataOffset).take b.size).length = b.size := by
  refine ⟨buildBinResult buf version assets,
    parseBinaryLPK_ok buf version assets hp, ?_, ?_, ?_, ?_⟩
  · rw [buildBinResult]
    exact buildBin_hasEntry buf assets _ a hnd ha
  · rw [extractData_length]
    omega
  · rw [← extractData_eq_drop_take, buildBinResult]
    exact buildBin_hasEntry buf assets _ b hnd hb
  · rw [← extractData_eq_drop_take]
    exact extractData_length_of_le buf b hgood

/-- Witness for C4 on `exhibitC4`: row `"b"` (size 9, offset 42) overruns
the 43-byte buffer while row `"a"` (size 1, offset 42) is in bounds. -/

theorem c4_truncated_row_clamped_witness :
    binParsed exhibitC4 =
      some (1, [⟨[97], 0, 1, 42⟩, ⟨[98], 0, 9, 42⟩]) ∧
    ([(⟨[97], 0, 1, 42⟩ : Asset), ⟨[98], 0, 9, 42⟩].map Asset.name).Nodup ∧
    exhibitC4.length < 42 + 9 ∧ (0 : Nat) < 9 ∧ 42 + 1 ≤ exhibitC4.length ∧
    (∃ r, parseBinaryLPK exhibitC4 = .ok r ∧
      hasEntry r [98] (extractData exhibitC4 ⟨[98], 0, 9, 42⟩) ∧
      (extractData exhibitC4 ⟨[98], 0, 9, 42⟩).length < 9 ∧
      hasEntry r [97] ((exhibitC4.drop 42).take 1) ∧
      ((exhibitC4.drop 42).take 1).length = 1) :=
  ⟨by decide, by decide, by decide, by decide, by decide,
    c4_truncated_row_clamped exhibitC4 1
      [⟨[97], 0, 1, 42⟩, ⟨[98], 0, 9, 42⟩]
      ⟨[98], 0, 9, 42⟩ ⟨[97], 0, 1, 42⟩
      (by decide) (by decide) (by decide) (by decide) (by decide)
      (by decide) (by decide)⟩

/-- C2: at every position where the nested-archive scan matches the 4-byte
local-file-header signature `50 4B 03 04`, the entry it emits reads, little
endian, the compressed size at signature offset +18, the uncompressed size
at +22, the filename length at +26 and the extra-field length at +28; the
name is the `filenameLength` bytes immediately after the fixed 30-byte
record; the payload starts immediately after the filename and extra fields
and, when in bounds, spans exactly `compressedSize` bytes (kept compressed
— the scan performs no decompression), with the next scan position right
past it. -/

theorem c2_local_header_fields (body : List Nat) (off : Nat)
    (hb : off + 30 < body.length)
    (hsig : body.getD off 0 = 80 ∧ body.getD (off + 1) 0 = 75 ∧
      body.getD (off + 2) 0 = 3 ∧ body.getD (off + 3) 0 = 4) :
    (scanFrom body off =
      ⟨(body.drop (off + 30)).take
          (body.getD (off + 26) 0 + 256 * body.getD (off + 27) 0),
        body.getD (off + 18) 0 + 256 * body.getD (off + 19) 0
          + 65536 * body.getD (off + 20) 0
          + 16777216 * body.getD (off + 21) 0,
        body.getD (off + 22) 0 + 256 * body.getD (off + 23) 0
          + 65536 * body.getD (off + 24) 0
          + 16777216 * body.getD (off + 25) 0,
        off + 30 + (body.getD (off + 26) 0 + 256 * body.getD (off + 27) 0)
          + (body.getD (off + 28) 0 + 256 * body.getD (off + 29) 0)⟩
      :: scanFrom body
          (off + 30 + (body.getD (off + 26) 0 + 256 * body.getD (off + 27) 0)
            + (body.getD (off + 28) 0 + 256 * body.getD (off + 29) 0)
            + (body.getD (off + 18) 0 + 256 * body.getD (off + 19) 0
              + 65536 * body.getD (off + 20) 0
              + 16777216 * body.getD (off + 21) 0))) ∧
    (∀ start cs : Nat, start + cs ≤ body.length →
      (sliceJS body start (start + cs)).length = cs) := by
  constructor
  · have hs : sigB body off = true := by
      unfold sigB
      rw [hsig.1, hsig.2.1, hsig.2.2.1, hsig.2.2.2]
      rfl
    rw [scanFrom_hit body off hb hs]
    rw [sliceJS_eq_drop_take]
    have h1 : off + 30 + readU16D body (off + 26) - (off + 30)
        = readU16D body (off + 26) := by omega
    rw [h1]
    rfl
  · intro start cs h
    rw [length_sliceJS]
    omega

/-- Witness for C2 on `exhibitC2`: the signature sits at offset 0 and the
emitted entry is `⟨"a", 1, 1, 31⟩` with the payload `[7]` of length 1. -/

theorem c2_local_header_fields_witness :
    (0 + 30 < exhibitC2.length ∧
      exhibitC2.getD 0 0 = 80 ∧ exhibitC2.getD (0 + 1) 0 = 75 ∧
      exhibitC2.getD (0 + 2) 0 = 3 ∧ exhibitC2.getD (0 + 3) 0 = 4) ∧
    ((scanFrom exhibitC2 0 =
      ⟨(exhibitC2.drop (0 + 30)).take
          (exhibitC2.getD (0 + 26) 0 + 256 * exhibitC2.getD (0 + 27) 0),
        exhibitC2.getD (0 + 18) 0 + 256 * exhibitC2.getD (0 + 19) 0
          + 65536 * exhibitC2.getD (0 + 20) 0
          + 16777216 * exhibitC2.getD (0 + 21) 0,
        exhibitC2.getD (0 + 22) 0 + 256 * exhibitC2.getD (0 + 23) 0
          + 65536 * exhibitC2.getD (0 + 24) 0
          + 16777216 * exhibitC2.getD (0 + 25) 0,
        0 + 30 + (exhibitC2.getD (0 + 26) 0
            + 256 * exhibitC2.getD (0 + 27) 0)
          + (exhibitC2.getD (0 + 28) 0 + 256 * exhibitC2.getD (0 + 29) 0)⟩
      :: scanFrom exhibitC2
          (0 + 30 + (exhibitC2.getD (0 + 26) 0
              + 256 * exhibitC2.getD (0 + 27) 0)
            + (exhibitC2.getD (0 + 28) 0 + 256 * exhibitC2.getD (0 + 29) 0)
            + (exhibitC2.getD (0 + 18) 0 + 256 * exhibitC2.getD (0 + 19) 0
              + 65536 * exhibitC2.getD (0 + 20) 0
              + 16777216 * exhibitC2.getD (0 + 21) 0))) ∧
    (∀ start cs : Nat, start + cs ≤ exhibitC2.length →
      (sliceJS exhibitC2 start (start + cs)).length = cs)) :=
  ⟨⟨by decide, by decide, by decide, by decide, by decide⟩,
    c2_local_header_fields exhibitC2 0 (by decide)
      ⟨by decide, by decide, by decide, by decide⟩⟩

theorem scanFrom_no_sig (body : List Nat)
    (hns : ∀ p, p + 30 < body.length → sigB body p = false) :
    ∀ (n off : Nat), body.length - off ≤ n → scanFrom body off = [] := by
  intro n
  induction n with
  | zero =>
    intro off h
    exact scanFrom_stop body off (by omega)
  | succ n ih =>
    intro off h
    by_cases hc : off + 30 < body.length
    · rw [scanFrom_miss body off hc (hns off hc)]
      exact ih (off + 1) (by omega)
    · exact scanFrom_stop body off hc

/-- C6 counterexample: an input of an 8-byte arbitrary header followed by a
zero-length body makes the nested-archive unwrapper return a manifest with
an empty entry list — there is no `NotAnArchive` failure and no signature
check at all; the scan's result type cannot fail, and validation in the
loader path is delegated to the external JSZip library. -/

theorem c6_counterexample :
    extractZipData [1, 2, 3, 4, 5, 6, 7, 8] = [] ∧
    analyzeLPK [1, 2, 3, 4, 5, 6, 7, 8] = [] := by
  decide

/-- C6 amended: the in-repo unwrapper performs no up-front signature check
after skipping the 8-byte header; whenever no local-file-header signature
occurs at any scannable position of the body — in particular for an empty
body — it returns an empty entry list rather than failing. -/

theorem c6_no_archive_empty_list (buf : List Nat)
    (hns : ∀ p < buf.length, p + 30 < (extractZipData buf).length →
      sigB (extractZipData buf) p = false) :
    analyzeLPK buf = [] := by
  unfold analyzeLPK
  have hlen : (extractZipData buf).length ≤ buf.length := by
    simp only [extractZipData, List.length_drop]
    omega
  refine scanFrom_no_sig (extractZipData buf) ?_
    (extractZipData buf).length 0 (by omega)
  intro p hp
  exact hns p (by omega) hp

/-- Witness for C6: the 8-byte input `[1..8]` whose body after the header
is empty. -/

theorem c6_no_archive_empty_list_witness :
    (∀ p < ([1, 2, 3, 4, 5, 6, 7, 8] : List Nat).length,
      p + 30 < (extractZipData [1, 2, 3, 4, 5, 6, 7, 8]).length →
      sigB (extractZipData [1, 2, 3, 4, 5, 6, 7, 8]) p = false) ∧
    analyzeLPK [1, 2, 3, 4, 5, 6, 7, 8] = [] :=
  ⟨by decide, c6_no_archive_empty_list [1, 2, 3, 4, 5, 6, 7, 8] (by decide)⟩

/-- C5: on a valid nested-archive input — an 8-byte header followed by a
body laid out as well-formed blocks plus trailing bytes, with the
local-file-header signature occurring only at the block starts — the scan
returns exactly one entry per block, in order: as many entries as there
are occurrences of the signature in the body.  The entry list equals
`expectedEntries`, whose per-block payload start `start + 30 +
filenameLength + extraFieldLength` and successor start `start + 30 +
filenameLength + extraFieldLength + compressedSize` witness that the
cursor is advanced past each consumed entry and consumed bytes are never
rescanned. -/

theorem c5_scan_counts_signatures (hdr body trailing : List Nat)
    (blocks : List Block)
    (hh : hdr.length = 8)
    (hbody : body = blocksBytes blocks ++ trailing)
    (hv : ∀ b ∈ blocks, blockValid b)
    (hsig : ∀ p < body.length, sigB body p = true →
      p ∈ blockStarts blocks 0) :
    analyzeLPK (hdr ++ body) = expectedEntries blocks 0 ∧
    (analyzeLPK (hdr ++ body)).length = blocks.length ∧
    countSig body = blocks.length := by
  subst hbody
  have hdrop : extractZipData (hdr ++ (blocksBytes blocks ++ trailing))
      = blocksBytes blocks ++ trailing := by
    unfold extractZipData
    rw [← hh]
    exact List.drop_left hdr (blocksBytes blocks ++ trailing)
  have htr : ∀ p, p + 30 < trailing.length → sigB trailing p = false := by
    intro p hp
    by_cases hcon : sigB trailing p = true
    · exfalso
      have hsb : sigB (blocksBytes blocks ++ trailing)
          ((blocksBytes blocks).length + p) = true := by
        rw [sigB_shift]
        exact hcon
      have hlt : (blocksBytes blocks).length + p
          < (blocksBytes blocks ++ trailing).length := by
        rw [List.length_append]
        omega
      have hmem := hsig _ hlt hsb
      have hle := blockStarts_add_lt blocks 0 hv _ hmem
      omega
    · simpa using hcon
  have hscan : scanFrom (blocksBytes blocks ++ trailing) 0
      = expectedEntries blocks 0 := by
    have h := scan_blocks blocks [] trailing hv htr
    simpa using h
  refine ⟨?_, ?_, ?_⟩
  · unfold analyzeLPK
    rw [hdrop]
    exact hscan
  · unfold analyzeLPK
    rw [hdrop, hscan, expectedEntries_length]
  · exact countSig_blocks blocks trailing hv hsig

/-- Witness for C5: one valid block (filename `"a"`, payload `[7]`) behind
an 8-byte header, with no trailing bytes; the scan finds exactly the one
entry and the body has exactly one signature occurrence. -/

theorem c5_scan_counts_signatures_witness :
    (([1, 2, 3, 4, 5, 6, 7, 8] : List Nat).length = 8 ∧
      blocksBytes [exhibitC5Block] ++ [] = blocksBytes [exhibitC5Block] ++ [] ∧
      (∀ b ∈ [exhibitC5Block], blockValid b) ∧
      (∀ p < (blocksBytes [exhibitC5Block] ++ ([] : List Nat)).length,
        sigB (blocksBytes [exhibitC5Block] ++ []) p = true →
          p ∈ blockStarts [exhibitC5Block] 0)) ∧
    (analyzeLPK ([1, 2, 3, 4, 5, 6, 7, 8]
        ++ (blocksBytes [exhibitC5Block] ++ []))
      = expectedEntries [exhibitC5Block] 0 ∧
    (analyzeLPK ([1, 2, 3, 4, 5, 6, 7, 8]
        ++ (blocksBytes [exhibitC5Block] ++ []))).length
      = ([exhibitC5Block] : List Block).length ∧
    countSig (blocksBytes [exhibitC5Block] ++ [])
      = ([exhibitC5Block] : List Block).length) :=
  ⟨⟨by decide, rfl, by decide, by decide⟩,
    c5_scan_counts_signatures [1, 2, 3, 4, 5, 6, 7, 8]
      (blocksBytes [exhibitC5Block] ++ []) [] [exhibitC5Block]
      (by decide) rfl (by decide) (by decide)⟩

/-- C7 counterexample: a ZIP-container file named `"x"` (code points
`[120]`, no extension — category unknown) with bytes `[1, 2, 3]` is not
retained anywhere in the manifest produced by the `parseZIPLPK`
categorization loop: the result has empty model and texture buckets and no
data bucket exists at all, so the entry's opaque bytes are dropped, not
retained.  Moreover the table's `json -> data` row does not hold of the
ZIP parser either: a well-formed `"a.json"` file makes the parse throw
(`result.assets.data` is never initialized) instead of producing any
manifest. -/

theorem c7_counterexample :
    parseZIPFiles [⟨[120], false, [1, 2, 3], true⟩] = .ok ⟨[], []⟩ ∧
    extOf [120] ∉ modelExts ∧ extOf [120] ∉ texExts ∧
    extOf [120] ≠ asciiStr "json" ∧
    parseZIPFiles [⟨[97, 46, 106, 115, 111, 110], false, [123, 125], true⟩]
      = .error "TypeError" := by
  exact ⟨rfl, by decide, by decide, by decide, rfl⟩

/-- C7 amended: the category of every extracted entry is computed
case-insensitively from the name's extension by the fixed table — in
particular `"x.PNG"` has extension `"png"` and lands in the texture bucket
— and every manifest entry of either parser arises from exactly that
table; but a name matching no table row is retained with its opaque bytes
(under `assets.data`) only by the binary-table parser, while the ZIP
parser's loop records such files nowhere; and in the ZIP parser the
`json -> data` row is dead: `result.assets.data` is never initialized, so
reaching any non-directory json file throws (`SyntaxError` from
`JSON.parse` or `TypeError` from the store) and no manifest is returned at
all. -/

theorem c7_category_table :
    (extOf (asciiStr "x.PNG") = asciiStr "png" ∧
      asciiStr "png" ∈ texExts ∧ extOf (asciiStr "x") ∉ modelExts ∧
      extOf (asciiStr "x") ∉ texExts) ∧
    (∀ (files : List ZFile) (r : ZipResult) (f : ZFile),
      parseZIPFiles files = .ok r → f ∈ files → f.dir = false →
      extOf f.name ∈ texExts →
      (⟨f.name, f.data, extOf f.name⟩ : BinEntry) ∈ r.textures) ∧
    (∀ (files : List ZFile) (r : ZipResult) (e : BinEntry),
      parseZIPFiles files = .ok r → e ∈ r.models →
      ∃ f ∈ files, f.dir = false ∧ extOf f.name ∈ modelExts ∧
        e = ⟨f.name, f.data, extOf f.name⟩) ∧
    (∀ (files : List ZFile) (r : ZipResult) (e : BinEntry),
      parseZIPFiles files = .ok r → e ∈ r.textures →
      ∃ f ∈ files, f.dir = false ∧ extOf f.name ∈ texExts ∧
        e = ⟨f.name, f.data, extOf f.name⟩) ∧
    (∀ (files : List ZFile) (f : ZFile), f ∈ files → f.dir = false →
      extOf f.name = asciiStr "json" →
      ∃ e, parseZIPFiles files = .error e) ∧
    (∀ (buf : List Nat) (version : Nat) (assets : List Asset) (a : Asset),
      binParsed buf = some (version, assets) →
      (assets.map Asset.name).Nodup → a ∈ assets →
      extOf a.name ∉ modelExts → extOf a.name ∉ texExts →
      ∃ r, parseBinaryLPK buf = .ok r ∧
        (a.name, extractData buf a) ∈ r.dataEntries) := by
  refine ⟨by decide, ?_, ?_, ?_, ?_, ?_⟩
  · intro files r f hok hf hd ht
    exact zip_textures_mem files ⟨[], []⟩ r f hok hf hd ht
  · intro files r e hok he
    rcases zipLoop_models_sound files ⟨[], []⟩ r e hok he with h | h
    · cases h
    · exact h
  · intro files r e hok he
    rcases zipLoop_textures_sound files ⟨[], []⟩ r e hok he with h | h
    · cases h
    · exact h
  · intro files f hf hd hj
    exact zip_json_no_manifest files ⟨[], []⟩ f hf hd hj
  · intro buf version assets a hp hnd ha hm ht
    refine ⟨buildBinResult buf version assets,
      parseBinaryLPK_ok buf version assets hp, ?_⟩
    rw [buildBinResult]
    exact buildBin_data_mem buf assets _ a hnd ha hm ht

/-- Witness for C7: the file `"x.PNG"` (code points `[120, 46, 80, 78, 71]`)
is categorized as a texture by the ZIP loop; a well-formed `"a.json"` file
makes the ZIP parse throw; and the no-extension binary row `"z"` of
`exhibitC10` is retained under the data bucket. -/

theorem c7_category_table_witness :
    (parseZIPFiles [⟨[120, 46, 80, 78, 71], false, [5], true⟩]
        = .ok ⟨[], [⟨[120, 46, 80, 78, 71], [5],
            extOf [120, 46, 80, 78, 71]⟩]⟩ ∧
      (⟨[120, 46, 80, 78, 71], false, [5], true⟩ : ZFile) ∈
        [(⟨[120, 46, 80, 78, 71], false, [5], true⟩ : ZFile)] ∧
      (⟨[120, 46, 80, 78, 71], false, [5], true⟩ : ZFile).dir = false ∧
      extOf [120, 46, 80, 78, 71] ∈ texExts) ∧
    (⟨[120, 46, 80, 78, 71], [5], extOf [120, 46, 80, 78, 71]⟩ : BinEntry) ∈
      (⟨[], [⟨[120, 46, 80, 78, 71], [5],
          extOf [120, 46, 80, 78, 71]⟩]⟩ : ZipResult).textures ∧
    (∃ e, parseZIPFiles
        [⟨[97, 46, 106, 115, 111, 110], false, [123, 125], true⟩]
      = .error e) ∧
    (∃ r, parseBinaryLPK exhibitC10 = .ok r ∧
      ([122], extractData exhibitC10 ⟨[122], 0, 5, 40⟩) ∈ r.dataEntries) :=
  ⟨⟨rfl, by decide, by decide, by decide⟩,
    c7_category_table.2.1 [⟨[120, 46, 80, 78, 71], false, [5], true⟩]
      ⟨[], [⟨[120, 46, 80, 78, 71], [5], extOf [120, 46, 80, 78, 71]⟩]⟩
      ⟨[120, 46, 80, 78, 71], false, [5], true⟩ rfl (by decide) (by decide)
      (by decide),
    c7_category_table.2.2.2.2.1
      [⟨[97, 46, 106, 115, 111, 110], false, [123, 125], true⟩]
      ⟨[97, 46, 106, 115, 111, 110], false, [123, 125], true⟩
      (by decide) (by decide) (by decide),
    c7_category_table.2.2.2.2.2 exhibitC10 1 [⟨[122], 0, 5, 40⟩]
      ⟨[122], 0, 5, 40⟩ (by decide) (by decide) (by decide) (by decide)
      (by decide)⟩

/-- Witness for C9: an 8-byte buffer of zeroes (magic mismatch, version 0
at offset 0, entry count 0 at offset 4, empty table). -/

theorem c9_magic_mismatch_continues_witness :
    4 ≤ ([0, 0, 0, 0, 0, 0, 0, 0] : List Nat).length ∧
    ([0, 0, 0, 0, 0, 0, 0, 0] : List Nat).take 4 ≠ [76, 80, 75, 0] ∧
    (parseBinaryLPK [0, 0, 0, 0, 0, 0, 0, 0] =
        parseBinaryCore [0, 0, 0, 0, 0, 0, 0, 0] 0 ∧
      binWarnings [0, 0, 0, 0, 0, 0, 0, 0] =
        ["LPK magic number mismatch, attempting to parse anyway..."] ∧
      ∀ r : BinResult, parseBinaryLPK [0, 0, 0, 0, 0, 0, 0, 0] = .ok r →
        ∃ count assets,
          readUInt32LE [0, 0, 0, 0, 0, 0, 0, 0] 0 = some r.version ∧
          readUInt32LE [0, 0, 0, 0, 0, 0, 0, 0] 4 = some count ∧
          readRows [0, 0, 0, 0, 0, 0, 0, 0] 8 count = some assets ∧
          r = buildBinResult [0, 0, 0, 0, 0, 0, 0, 0] r.version assets) :=
  ⟨by decide, by decide,
    c9_magic_mismatch_continues [0, 0, 0, 0, 0, 0, 0, 0]
      (by decide) (by decide)⟩

end LPK
